import Mathlib

/-!
Verification development for the Website_Scraper repository (src/app.py and
src/backend.py).  The Python source is shallowly embedded: pure helper
functions become Lean functions on `String`, the BeautifulSoup document is
abstracted as a list of tags (the parser itself is a black-box collaborator),
the network is abstracted as an oracle, and the Streamlit crawl loop becomes
an explicit state-passing recursion.  Machine floats of the size prober are
modelled with `Rat`.
-/

/-! ### Python string primitives used by the source

All of them are implemented over the character list of the string, so that a
proof checker can evaluate them on concrete inputs. -/

/-- Python's `str.split(sep)` with a one-character separator: every
occurrence splits, empty pieces are kept. -/
def splitOnCharAux (sep : Char) : List Char → List Char → List String
  | [], acc => [String.mk acc.reverse]
  | c :: cs, acc =>
    if c = sep then String.mk acc.reverse :: splitOnCharAux sep cs []
    else splitOnCharAux sep cs (c :: acc)

def splitOnChar (sep : Char) (s : String) : List String :=
  splitOnCharAux sep s.data []

/-- Lowercasing (`str.lower`). -/
def pyLower (s : String) : String := String.mk (s.data.map Char.toLower)

/-- `str.startswith`. -/
def strStartsWith (s pre : String) : Bool := decide (pre.data <+: s.data)

/-- `str.endswith`. -/
def strEndsWith (s post : String) : Bool := decide (post.data <:+ s.data)

theorem length_dropWhile_le {α : Type} (p : α → Bool) :
    ∀ l : List α, (l.dropWhile p).length ≤ l.length
  | [] => le_rfl
  | c :: cs => by
    rw [List.dropWhile_cons]
    split
    · exact le_trans (length_dropWhile_le p cs) (by simp)
    · simp

/-- Python's `str.split()` with no argument: the maximal whitespace-free
runs (split on whitespace runs, dropping empty pieces).  The accumulator
holds the current run reversed. -/
def nonWsRunsAux : List Char → List Char → List String
  | [], acc => if acc = [] then [] else [String.mk acc.reverse]
  | c :: cs, acc =>
    if c.isWhitespace then
      if acc = [] then nonWsRunsAux cs []
      else String.mk acc.reverse :: nonWsRunsAux cs []
    else nonWsRunsAux cs (c :: acc)

def pySplitWs (s : String) : List String := nonWsRunsAux s.data []

/-- Python's `str.strip()` with no argument. -/
def pyStrip (s : String) : String :=
  String.mk (((s.data.dropWhile Char.isWhitespace).reverse.dropWhile
    Char.isWhitespace).reverse)

/-- Python's `str.strip(chars)`: remove any of the given characters from both
ends. -/
def pyStripChars (cs : List Char) (s : String) : String :=
  String.mk (((s.data.dropWhile (fun c => cs.contains c)).reverse.dropWhile
    (fun c => cs.contains c)).reverse)

/-- Python's `str.lstrip(chars)`. -/
def pyLStripChars (cs : List Char) (s : String) : String :=
  String.mk (s.data.dropWhile (fun c => cs.contains c))

/-- Python's substring test `sub in s`. -/
def pyContains (s sub : String) : Bool :=
  decide (sub.data <:+: s.data)

/-- Python's `str.isdigit` restricted to ASCII digits (the only digits that
appear in HTTP content-length headers). -/
def pyIsDigit (s : String) : Bool :=
  s ≠ "" && s.data.all Char.isDigit

/-- Python's `int(s)` on an all-digit string. -/
def pyToNat (s : String) : Nat :=
  s.data.foldl (fun n c => n * 10 + (c.toNat - 48)) 0

/-- Python's `s.split(sep, 1)` for a one-character separator: the part before
the first occurrence of `sep` and the remainder (empty when `sep` does not
occur). -/
def splitFirstOn (sep : Char) (s : String) : String × String :=
  match splitOnChar sep s with
  | [] => (s, "")
  | a :: rest => (a, String.intercalate (String.mk [sep]) rest)

/-! ### Model of urllib.parse (urlsplit / urlunsplit / urljoin / urldefrag)

The source treats `urllib.parse` as a black-box URL capability; the model
below follows CPython's algorithms for scheme/netloc/query/fragment splitting,
reconstruction, and relative-reference resolution (the rarely-used `params`
component, split at `;`, is omitted: no URL handled by this program uses it).
-/

structure UrlParts where
  scheme : String
  netloc : String
  path : String
  query : String
  fragment : String
deriving Repr, DecidableEq

/-- Characters allowed in a URL scheme after the leading letter. -/
def isSchemeChar (c : Char) : Bool :=
  c.isAlphanum || c == '+' || c == '-' || c == '.'

/-- Split off the scheme, CPython style: a leading alphabetic character
followed by scheme characters and a colon. Returns (scheme lowercased, rest).
-/
def splitScheme (url : String) : String × String :=
  match splitOnChar ':' url with
  | [] => ("", url)
  | [_] => ("", url)
  | p :: rest =>
    match p.data with
    | [] => ("", url)
    | c0 :: _ =>
      if c0.isAlpha && p.data.all isSchemeChar then
        (pyLower p, String.intercalate ":" rest)
      else ("", url)

/-- Split off the network location: present only after a leading `//`, and
delimited by the next `/`, `?` or `#`. Returns (netloc, rest). -/
def splitNetloc (url : String) : String × String :=
  if strStartsWith url "//" then
    let rest := url.data.drop 2
    let netloc := rest.takeWhile (fun c => c ≠ '/' && c ≠ '?' && c ≠ '#')
    (String.mk netloc, String.mk (rest.drop netloc.length))
  else ("", url)

/-- Model of `urllib.parse.urlsplit`. -/
def urlsplitM (url : String) : UrlParts :=
  let sr := splitScheme url
  let nr := splitNetloc sr.2
  let fr := splitFirstOn '#' nr.2
  let pq := splitFirstOn '?' fr.1
  { scheme := sr.1, netloc := nr.1, path := pq.1, query := pq.2, fragment := fr.2 }

/-- Model of `urllib.parse.urlunsplit`. -/
def urlunsplitM (p : UrlParts) : String :=
  let url := p.path
  let url :=
    if p.netloc ≠ "" ∨ (url ≠ "" ∧ strStartsWith url "//") then
      "//" ++ p.netloc ++ (if url ≠ "" ∧ ¬ strStartsWith url "/" then "/" ++ url else url)
    else url
  let url := if p.scheme ≠ "" then p.scheme ++ ":" ++ url else url
  let url := if p.query ≠ "" then url ++ "?" ++ p.query else url
  if p.fragment ≠ "" then url ++ "#" ++ p.fragment else url

/-- CPython's `uses_relative` scheme list. -/
def usesRelative : List String :=
  ["", "ftp", "http", "gopher", "nntp", "imap", "wais", "file", "https",
   "shttp", "mms", "prospero", "rtsp", "rtspu", "sftp", "svn", "svn+ssh",
   "ws", "wss"]

/-- CPython's `uses_netloc` scheme list. -/
def usesNetloc : List String :=
  ["", "ftp", "http", "gopher", "nntp", "telnet", "imap", "wais", "file",
   "mms", "https", "shttp", "snews", "prospero", "rtsp", "rtspu", "rsync",
   "svn", "svn+ssh", "sftp", "nfs", "git", "git+ssh", "ws", "wss",
   "itms-services"]

/-- Dot-segment resolution of `urljoin`: `..` pops, `.` is skipped, and a
trailing `.` or `..` leaves a trailing empty segment. -/
def resolveSegments (segments : List String) : List String :=
  let resolved := segments.foldl
    (fun acc seg =>
      if seg = ".." then acc.dropLast
      else if seg = "." then acc
      else acc ++ [seg]) []
  if segments.getLast? = some "." ∨ segments.getLast? = some ".." then
    resolved ++ [""]
  else resolved

/-- Keep the first and last segments, dropping empty middle segments
(CPython's `segments[1:-1] = filter(None, segments[1:-1])`). -/
def filterMidSegments : List String → List String
  | [] => []
  | [a] => [a]
  | a :: b :: rest =>
    a :: ((b :: rest).dropLast.filter (fun x => x ≠ "") ++ [(b :: rest).getLastD ""])

/-- Model of `urllib.parse.urljoin` (without the `params` component). -/
def urljoinM (base url : String) : String :=
  if base = "" then url
  else if url = "" then base
  else
    let b := urlsplitM base
    let u := urlsplitM url
    let scheme := if u.scheme = "" then b.scheme else u.scheme
    if scheme ≠ b.scheme ∨ scheme ∉ usesRelative then url
    else if scheme ∈ usesNetloc ∧ u.netloc ≠ "" then
      urlunsplitM { u with scheme := scheme }
    else
      let netloc := if scheme ∈ usesNetloc then b.netloc else u.netloc
      if u.path = "" then
        let query := if u.query = "" then b.query else u.query
        urlunsplitM { scheme := scheme, netloc := netloc, path := b.path,
                      query := query, fragment := u.fragment }
      else
        let baseParts := splitOnChar '/' b.path
        let baseParts := if baseParts.getLast? ≠ some "" then baseParts.dropLast else baseParts
        let segments :=
          if strStartsWith u.path "/" then splitOnChar '/' u.path
          else filterMidSegments (baseParts ++ splitOnChar '/' u.path)
        let joined := String.intercalate "/" (resolveSegments segments)
        urlunsplitM { scheme := scheme, netloc := netloc,
                      path := if joined = "" then "/" else joined,
                      query := u.query, fragment := u.fragment }

/-- Model of `urllib.parse.urldefrag`: the URL without its fragment, plus the
fragment. Without a `#` the URL is returned unchanged; with one, the URL is
reparsed and reassembled. -/
def urldefragM (url : String) : String × String :=
  if pyContains url "#" then
    let p := urlsplitM url
    (urlunsplitM { p with fragment := "" }, p.fragment)
  else (url, "")

/-- Python set.add on a list kept duplicate-free. -/
def setAdd (xs : List String) (x : String) : List String :=
  if xs.contains x then xs else xs ++ [x]

/-- Python set.update. -/
def setUnion (xs : List String) (new : List String) : List String :=
  new.foldl setAdd xs

/-! ### Shared document model

BeautifulSoup is an out-of-scope collaborator; a parsed document is modelled
as the flat list of its tags, each carrying a name, its attributes, and its
text content (`get_text`).  An absent or empty HTML string parses to the
empty document. -/

structure Tag where
  name : String
  attrs : List (String × String)
  innerText : String := ""
deriving Repr, DecidableEq

/-- BeautifulSoup's `tag.get(key)`: the attribute value, or None. -/
def Tag.get (t : Tag) (k : String) : Option String :=
  (t.attrs.find? (fun p => p.1 == k)).map (fun p => p.2)

/-- Python truthiness of an optional string (`None` and `""` are falsy). -/
def truthyStr : Option String → Bool
  | none => false
  | some s => s ≠ ""

/-- Python's `a or b` on optional strings: the first truthy operand, else the
last operand. -/
def pyOrStr (a b : Option String) : Option String :=
  if truthyStr a then a else b

/-- Capture group of the CSS regex `url\(([^)]+)\)` starting right after a
literal `url(`: the nonempty run up to the next closing parenthesis, plus the
remainder of the input after that parenthesis. -/
def takeCapture (l : List Char) : Option (String × List Char) :=
  let cap := l.takeWhile (fun x => x ≠ ')')
  match l.drop cap.length with
  | ')' :: after => if cap ≠ [] then some (String.mk cap, after) else none
  | _ => none

theorem takeCapture_lt {l : List Char} {s : String} {after : List Char}
    (h : takeCapture l = some (s, after)) : after.length < l.length := by
  unfold takeCapture at h
  dsimp only at h
  split at h
  · rename_i after2 heq
    split at h
    · have hinj : after2 = after := by
        simpa using congrArg (fun o => Option.map Prod.snd o) h
      have hlen := congrArg List.length heq
      rw [List.length_drop] at hlen
      simp only [List.length_cons] at hlen
      subst hinj
      omega
    · exact absurd h (by simp)
  · exact absurd h (by simp)

/-- Occurrences of the CSS regex `url\(([^)]+)\)` in a string: each capture is
the nonempty run after a literal `url(` up to the next closing parenthesis;
scanning resumes after the match (or one character further on a failed
match). -/
def cssUrlCaptures : List Char → List String
  | [] => []
  | c :: cs =>
    if (c :: cs).take 4 = ['u', 'r', 'l', '('] then
      match h : takeCapture ((c :: cs).drop 4) with
      | some (cap, after) => cap :: cssUrlCaptures after
      | none => cssUrlCaptures cs
    else cssUrlCaptures cs
termination_by l => l.length
decreasing_by
  · have h1 := takeCapture_lt h
    simp only [List.length_drop, List.length_cons] at h1 ⊢
    omega
  · simp
  · simp


/-! ### src/app.py — helpers and extractor -/

namespace App

/-- app.py VALID_IMAGE_EXTS. -/
def VALID_IMAGE_EXTS : List String := ["jpg", "jpeg", "png", "gif", "webp", "svg"]

/-- app.py EXCLUDE_KEYWORDS. -/
def EXCLUDE_KEYWORDS : List String := ["logo", "icon", "favicon"]

/-- app.py normalize_url: strip the fragment, then reparse and rebuild with
empty query and fragment. -/
def normalize_url (u : String) : String :=
  let u := (urldefragM u).1
  let parsed := urlsplitM u
  urlunsplitM { parsed with query := "", fragment := "" }

/-- app.py abs_url. -/
def abs_url (base u : String) : String := urljoinM base u

/-- app.py same_host: compare the parsed netloc with the base host (the
urlparse call never raises in this model, matching the try/except). -/
def same_host (u base_host : String) : Bool :=
  (urlsplitM u).netloc == base_host

/-- app.py is_image_url. -/
def is_image_url (url : String) : Bool :=
  if url = "" then false
  else
    let path := pyLower ((splitOnChar '?' url).headD url)
    VALID_IMAGE_EXTS.any (fun ext => strEndsWith path ("." ++ ext))

/-- app.py is_excluded. -/
def is_excluded (url : String) : Bool :=
  EXCLUDE_KEYWORDS.any (fun kw => pyContains (pyLower url) kw)

/-- app.py extract_images_from_html's inner keyword_match. -/
def keyword_match (keywords : List String) (text : String) : Bool :=
  if keywords = [] then true
  else keywords.any (fun k => pyContains (pyLower text) k)

/-- Shared body of app.py's candidate acceptance with a context text:
resolve, normalize, then require the image-extension test, the exclusion
test, and a keyword match on the URL or on the context text.  The Python
set of found images is modelled as a duplicate-free list in insertion
order. -/
def addCandidateCtx (base_url : String) (keywords : List String)
    (ctx : String) (c : String) (acc : List String) : List String :=
  let full := normalize_url (abs_url base_url c)
  if is_image_url full && !(is_excluded full) then
    if keyword_match keywords full || keyword_match keywords ctx then
      setAdd acc full
    else acc
  else acc

/-- Candidate acceptance for the variants that match keywords only against
the URL (style blocks, meta tags, link tags). -/
def addCandidateUrlOnly (base_url : String) (keywords : List String)
    (c : String) (acc : List String) : List String :=
  let full := normalize_url (abs_url base_url c)
  if is_image_url full && !(is_excluded full) then
    if keyword_match keywords full then setAdd acc full
    else acc
  else acc

/-- Per-img processing of app.py's extractor.  Every truthy attribute among
src, data-src, data-original, data-lazy is a candidate; then every
comma-separated srcset candidate contributes its first whitespace token —
`part.strip().split()[0]` raises IndexError (modelled as `Except.error ()`)
when the candidate has no tokens. -/
def processImg (base_url : String) (keywords : List String)
    (acc : List String) (img : Tag) : Except Unit (List String) :=
  let alt_text := ((img.get "alt").getD "") ++ " " ++ ((img.get "title").getD "")
  let acc := (["src", "data-src", "data-original", "data-lazy"].map img.get).foldl
    (fun a c =>
      match c with
      | some s => if s ≠ "" then addCandidateCtx base_url keywords alt_text s a else a
      | none => a) acc
  match img.get "srcset" with
  | none => .ok acc
  | some srcset =>
    if srcset = "" then .ok acc
    else
      (splitOnChar ',' srcset).foldlM
        (fun a part =>
          match pySplitWs (pyStrip part) with
          | [] => .error ()
          | url :: _ => .ok (addCandidateCtx base_url keywords alt_text url a))
        acc

/-- Inline-style processing: scan the style attribute for CSS url(...)
references, strip quotes, and match keywords against the URL or the tag
text. -/
def processStyleAttr (base_url : String) (keywords : List String)
    (acc : List String) (tag : Tag) : List String :=
  match tag.get "style" with
  | none => acc
  | some style =>
    let text := tag.innerText
    (cssUrlCaptures style.data).foldl
      (fun a u =>
        addCandidateCtx base_url keywords text (pyStripChars [' ', '"', (Char.ofNat 39)] u) a)
      acc

/-- style-block processing: CSS url(...) references in the tag text, keyword
matched against the URL only. -/
def processStyleBlock (base_url : String) (keywords : List String)
    (acc : List String) (tag : Tag) : List String :=
  (cssUrlCaptures tag.innerText.data).foldl
    (fun a u =>
      addCandidateUrlOnly base_url keywords (pyStripChars [' ', '"', (Char.ofNat 39)] u) a)
    acc

/-- meta-tag processing: the content attribute, when truthy. -/
def processMeta (base_url : String) (keywords : List String)
    (acc : List String) (meta : Tag) : List String :=
  match meta.get "content" with
  | none => acc
  | some c => if c ≠ "" then addCandidateUrlOnly base_url keywords c acc else acc

/-- link-tag processing: the href attribute, when truthy. -/
def processLink (base_url : String) (keywords : List String)
    (acc : List String) (link : Tag) : List String :=
  match link.get "href" with
  | none => acc
  | some href => if href ≠ "" then addCandidateUrlOnly base_url keywords href acc else acc

/-- video-tag processing: the poster attribute, when truthy; keywords are
matched against the URL or the video title. -/
def processVideo (base_url : String) (keywords : List String)
    (acc : List String) (video : Tag) : List String :=
  match video.get "poster" with
  | none => acc
  | some p =>
    let title := (video.get "title").getD ""
    if p ≠ "" then addCandidateCtx base_url keywords title p acc else acc

/-- app.py extract_images_from_html over a parsed document.  An absent or
empty HTML string parses to the empty document.  The srcset handling can
raise (Except.error). -/
def extract_images_from_html (base_url : String) (doc : List Tag)
    (keywords : List String) : Except Unit (List String) := do
  let s1 ← (doc.filter (fun t => t.name == "img")).foldlM
    (processImg base_url keywords) ([] : List String)
  let s2 := (doc.filter (fun t => (t.get "style").isSome)).foldl
    (processStyleAttr base_url keywords) s1
  let s3 := (doc.filter (fun t => t.name == "style")).foldl
    (processStyleBlock base_url keywords) s2
  let s4 := (doc.filter (fun t => t.name == "meta" && (t.get "content").isSome)).foldl
    (processMeta base_url keywords) s3
  let s5 := (doc.filter (fun t => t.name == "link" && (t.get "href").isSome)).foldl
    (processLink base_url keywords) s4
  let s6 := (doc.filter (fun t => t.name == "video" && (t.get "poster").isSome)).foldl
    (processVideo base_url keywords) s5
  return s6

/-- app.py extract_links: every a-href, resolved and normalized. -/
def extract_links (base_url : String) (doc : List Tag) : List String :=
  (doc.filter (fun t => t.name == "a" && (t.get "href").isSome)).foldl
    (fun acc a =>
      match a.get "href" with
      | none => acc
      | some href => setAdd acc (normalize_url (abs_url base_url href)))
    ([] : List String)

end App

/-! ### src/backend.py — helpers and extractor -/

namespace Backend

/-- backend.py normalize_url: strip the fragment only (the query survives). -/
def normalize_url (u : String) : String := (urldefragM u).1

/-- backend.py abs_url. -/
def abs_url (base u : String) : String := urljoinM base u

/-- backend.py same_host. -/
def same_host (u base_host : String) : Bool :=
  (urlsplitM u).netloc == base_host

/-- backend.py extract_images_from_html's inner is_valid_image. -/
def is_valid_image (url : String) : Bool :=
  let url := (splitOnChar '?' (pyLower url)).headD (pyLower url)
  ["jpg", "jpeg", "png", "gif", "webp", "svg"].any
    (fun ext => strEndsWith url ("." ++ ext))

/-- The direct-attribute candidate expression of backend.py's extractor:
`img.get("src") or img.get("data-src") or img.get("data-original") or
img.get("data-lazy")`. -/
def directCandidate (img : Tag) : Option String :=
  pyOrStr (pyOrStr (pyOrStr (img.get "src") (img.get "data-src"))
    (img.get "data-original")) (img.get "data-lazy")

/-- backend.py extract_images_from_html: only img tags are scanned, there is
no exclusion-keyword test, and an empty srcset candidate is skipped (the
`if part:` guard). -/
def extract_images_from_html (base_url : String) (doc : List Tag) : List String :=
  (doc.filter (fun t => t.name == "img")).foldl
    (fun imgs img =>
      let imgs :=
        match directCandidate img with
        | none => imgs
        | some s =>
          if s ≠ "" then
            let full := normalize_url (abs_url base_url s)
            if is_valid_image full then setAdd imgs full else imgs
          else imgs
      match img.get "srcset" with
      | none => imgs
      | some srcset =>
        if srcset = "" then imgs
        else
          (splitOnChar ',' srcset).foldl
            (fun acc item =>
              match pySplitWs (pyStrip item) with
              | [] => acc
              | p0 :: _ =>
                let candidate := normalize_url (abs_url base_url p0)
                if is_valid_image candidate then setAdd acc candidate else acc)
            imgs)
    ([] : List String)

/-- backend.py extract_links. -/
def extract_links (base_url : String) (doc : List Tag) : List String :=
  (doc.filter (fun t => t.name == "a" && (t.get "href").isSome)).foldl
    (fun acc a =>
      match a.get "href" with
      | none => acc
      | some href => setAdd acc (normalize_url (abs_url base_url href)))
    ([] : List String)

end Backend

/-- Decidable equality of Except values (for evaluating extraction results on
concrete documents). -/
instance {ε α : Type} [DecidableEq ε] [DecidableEq α] : DecidableEq (Except ε α) :=
  fun x y =>
    match x, y with
    | .error a, .error b =>
      if h : a = b then isTrue (by rw [h]) else isFalse (fun he => h (by injection he))
    | .ok a, .ok b =>
      if h : a = b then isTrue (by rw [h]) else isFalse (fun he => h (by injection he))
    | .error _, .ok _ => isFalse (fun he => Except.noConfusion he)
    | .ok _, .error _ => isFalse (fun he => Except.noConfusion he)

/-! ### The crawl scheduler (app.py crawl_site; backend.py scan_site has the
same loop structure)

The network and the externally-settable stop flag are oracles:
`fetch u = none` models a page fetch that failed, timed out, or returned a
non-text response (fetch_text yields "" and extraction yields empty sets),
and `fetch u = some (imgs, links)` models a fetched-and-parsed page whose
extraction produced those images and links.  `stopPre n` is the value of the
stop flag read at the pre-batch checkpoint of iteration `n`; `stopWorker n u`
is its value read inside the fetch worker for `u` during iteration `n`. -/

structure CrawlEnv where
  fetch : String → Option (List String × List String)
  stopPre : Nat → Bool
  stopWorker : Nat → String → Bool

/-- Crawl state: the visited set `seen` (a duplicate-free list), the FIFO
frontier `to_visit`, the discovered-image set `found_images`, and a ghost log
`fetchedLog` of the pages whose HTML was actually fetched and parsed (not a
program variable; it records fetch events for the pagesVisited-vs-fetched
comparison). -/
structure CrawlState where
  seen : List String
  to_visit : List String
  found_images : List String
  fetchedLog : List String
deriving Repr, DecidableEq

/-- The batch draw of the crawl loop: run `k` loop iterations, each popping
one URL off the front of the frontier; a popped URL already seen or
host-mismatched is dropped (its iteration is still consumed, as in the
source's fixed-count for loop); the rest are marked seen and batched, in
order.  Returns (batch, seen, to_visit). -/
def drawBatch (base_host : String) :
    Nat → List String → List String → List String →
    List String × List String × List String
  | 0, tv, seen, batch => (batch, seen, tv)
  | _ + 1, [], seen, batch => (batch, seen, [])
  | k + 1, u :: tv, seen, batch =>
    if !(seen.contains u) && App.same_host u base_host then
      drawBatch base_host k tv (seen ++ [u]) (batch ++ [u])
    else
      drawBatch base_host k tv seen batch

/-- The fetch worker (app.py's `visit`): under the semaphore it re-checks the
stop flag and returns empty results without fetching when it is set;
otherwise the page is fetched and run through the extractors.  The third
component is the ghost did-fetch-and-parse bit. -/
def visit (env : CrawlEnv) (n : Nat) (u : String) : List String × List String × Bool :=
  if env.stopWorker n u then ([], [], false)
  else
    match env.fetch u with
    | none => ([], [], false)
    | some (imgs, links) => (imgs, links, true)

/-- The link-merge of the crawl loop: append each reported link to the back
of the frontier when it is unseen, same-host, and the visited count is still
below the page budget. -/
def enqueueLinks (base_host : String) (max_pages : Nat) (seen : List String)
    (tv : List String) (links : List String) : List String :=
  links.foldl
    (fun acc l =>
      if !(seen.contains l) && App.same_host l base_host && decide (seen.length < max_pages)
      then acc ++ [l] else acc)
    tv

/-- One iteration of the crawl loop.  `Sum.inr st` means the loop exits with
final state `st`; `Sum.inl st` means the loop continues with state `st`.
The loop exits when the frontier is empty or the budget is reached (the
while condition), when the stop flag is observed at the pre-batch
checkpoint, or when the drawn batch is empty. -/
def crawlIterate (env : CrawlEnv) (max_pages concurrency : Nat)
    (base_host : String) (n : Nat) (st : CrawlState) : CrawlState ⊕ CrawlState :=
  if st.to_visit = [] ∨ ¬ st.seen.length < max_pages then .inr st
  else if env.stopPre n then .inr st
  else
    let dbr := drawBatch base_host
      (min concurrency (min st.to_visit.length (max_pages - st.seen.length)))
      st.to_visit st.seen []
    let batch := dbr.1
    let seen1 := dbr.2.1
    let tv1 := dbr.2.2
    if batch = [] then .inr { st with seen := seen1, to_visit := tv1 }
    else
      let results := batch.map (fun u => (u, visit env n u))
      let found2 := results.foldl (fun f r => setUnion f r.2.1) st.found_images
      let tv2 := results.foldl
        (fun tv r => enqueueLinks base_host max_pages seen1 tv r.2.2.1) tv1
      let log2 := st.fetchedLog ++ (results.filter (fun r => r.2.2.2)).map (fun r => r.1)
      .inl { seen := seen1, to_visit := tv2, found_images := found2, fetchedLog := log2 }

/-- Everything the batch draw does to its accumulators: the batch and the
seen set grow by the same freshly-drawn, host-matching, in-frontier URLs,
the remaining frontier came from the input frontier, and seen stays
duplicate-free. -/
theorem drawBatch_spec (base_host : String) :
    ∀ (k : Nat) (tv seen batch : List String),
      ∃ added : List String,
        (drawBatch base_host k tv seen batch).1 = batch ++ added ∧
        (drawBatch base_host k tv seen batch).2.1 = seen ++ added ∧
        (∀ u ∈ added, App.same_host u base_host = true ∧ u ∉ seen ∧ u ∈ tv) ∧
        (∀ u ∈ (drawBatch base_host k tv seen batch).2.2, u ∈ tv) ∧
        ((seen.Nodup → (seen ++ added).Nodup) ∧ added.length ≤ k)
  | 0, tv, seen, batch => ⟨[], by simp [drawBatch]⟩
  | k + 1, [], seen, batch => ⟨[], by simp [drawBatch]⟩
  | k + 1, u :: tv, seen, batch => by
    by_cases hc : (!(seen.contains u) && App.same_host u base_host) = true
    · obtain ⟨added, h1, h2, h3, h4, h5⟩ :=
        drawBatch_spec base_host k tv (seen ++ [u]) (batch ++ [u])
      have hnc : u ∉ seen ∧ App.same_host u base_host = true := by
        simp only [Bool.and_eq_true, Bool.not_eq_true'] at hc
        exact ⟨by simpa using hc.1, hc.2⟩
      refine ⟨u :: added, ?_, ?_, ?_, ?_, ?_⟩
      · simp only [drawBatch, hc, if_true, h1]; simp
      · simp only [drawBatch, hc, if_true, h2]; simp
      · intro v hv
        rw [List.mem_cons] at hv
        rcases hv with rfl | hv
        · exact ⟨hnc.2, hnc.1, by simp⟩
        · obtain ⟨hsh, hns, htv⟩ := h3 v hv
          refine ⟨hsh, fun hmem => hns (by simp [hmem]), by simp [htv]⟩
      · intro v hv
        simp only [drawBatch, hc, if_true] at hv
        exact List.mem_cons_of_mem _ (h4 v hv)
      · constructor
        · intro hnd
          have hnd2 : (seen ++ [u]).Nodup := by
            simp [List.nodup_append, hnd, hnc.1]
          simpa using h5.1 hnd2
        · simp only [List.length_cons]
          omega
    · obtain ⟨added, h1, h2, h3, h4, h5⟩ := drawBatch_spec base_host k tv seen batch
      refine ⟨added, ?_, ?_, ?_, ?_, h5.1, by omega⟩
      · simpa only [drawBatch, hc, if_false, Bool.false_eq_true] using h1
      · simpa only [drawBatch, hc, if_false, Bool.false_eq_true] using h2
      · intro v hv
        obtain ⟨hsh, hns, htv⟩ := h3 v hv
        exact ⟨hsh, hns, by simp [htv]⟩
      · intro v hv
        simp only [drawBatch, hc, if_false, Bool.false_eq_true] at hv
        exact List.mem_cons_of_mem _ (h4 v hv)

/-- A continuing iteration was under budget and strictly grew the visited
set (the batch was nonempty and every batch member was added to seen). -/
theorem crawlIterate_inl {env : CrawlEnv} {mp conc : Nat} {host : String} {n : Nat}
    {st st1 : CrawlState} (h : crawlIterate env mp conc host n st = .inl st1) :
    st.seen.length < mp ∧ st.seen.length < st1.seen.length := by
  unfold crawlIterate at h
  dsimp only at h
  split at h
  · exact absurd h (by simp)
  · rename_i hguard
    push_neg at hguard
    split at h
    · exact absurd h (by simp)
    · split at h
      · exact absurd h (by simp)
      · rename_i hbatch
        obtain ⟨added, h1, h2, h3, h4, h5⟩ := drawBatch_spec host
          (min conc (min st.to_visit.length (mp - st.seen.length))) st.to_visit st.seen []
        have hproj : (drawBatch host
            (min conc (min st.to_visit.length (mp - st.seen.length)))
            st.to_visit st.seen []).2.1 = st1.seen := by
          have := congrArg
            (fun x => match x with | Sum.inl s => s.seen | Sum.inr s => s.seen) h
          simpa using this
        have hadded : added ≠ [] := by
          intro hcon
          exact hbatch (by rw [h1, hcon]; simp)
        have hlen : st1.seen.length = st.seen.length + added.length := by
          rw [← hproj, h2]; simp
        have : 1 ≤ added.length := by
          cases added with
          | nil => exact absurd rfl hadded
          | cons a l => simp
        exact ⟨hguard.2, by omega⟩

/-- The crawl loop: iterate until an exit condition holds.  Termination:
every continuing iteration strictly grows `seen`, which stays below the page
budget. -/
def crawlLoop (env : CrawlEnv) (mp conc : Nat) (host : String) :
    Nat → CrawlState → CrawlState
  | n, st =>
    match h : crawlIterate env mp conc host n st with
    | .inr fin => fin
    | .inl st1 => crawlLoop env mp conc host (n + 1) st1
termination_by n st => mp - st.seen.length
decreasing_by
  have := crawlIterate_inl h
  omega

/-- The initial crawl state: empty seen set, the base URL as the frontier
seed, no images. -/
def initState (base_url : String) : CrawlState :=
  { seen := [], to_visit := [base_url], found_images := [], fetchedLog := [] }

/-- The final state of app.py's crawl_site (and of backend.py's scan_site,
whose loop is identical): base_host is the parsed netloc of the base URL. -/
def crawlFinal (env : CrawlEnv) (base_url : String) (max_pages concurrency : Nat) :
    CrawlState :=
  crawlLoop env max_pages concurrency (urlsplitM base_url).netloc 0 (initState base_url)

/-- app.py crawl_site: returns the discovered images and `len(seen)` as the
pages-visited count. -/
def crawl_site (env : CrawlEnv) (base_url : String) (max_pages concurrency : Nat) :
    List String × Nat :=
  ((crawlFinal env base_url max_pages concurrency).found_images,
   (crawlFinal env base_url max_pages concurrency).seen.length)

/-- The crawl-state invariant: the visited set holds at most `max_pages`
distinct (duplicate-free) URLs, all of them host-matching; every frontier
entry is host-matching; and no more pages were fetched than were marked
visited. -/
def CrawlInv (host : String) (mp : Nat) (st : CrawlState) : Prop :=
  st.seen.length ≤ mp ∧ st.seen.Nodup ∧
  (∀ u ∈ st.seen, App.same_host u host = true) ∧
  (∀ u ∈ st.to_visit, App.same_host u host = true) ∧
  st.fetchedLog.length ≤ st.seen.length

theorem setAdd_mem_of_mem {xs : List String} {x : String} (y : String)
    (h : x ∈ xs) : x ∈ setAdd xs y := by
  unfold setAdd
  split <;> simp [h]

theorem setUnion_mem_of_mem :
    ∀ (new xs : List String) (x : String), x ∈ xs → x ∈ setUnion xs new
  | [], _, _, h => h
  | y :: new, xs, x, h =>
    setUnion_mem_of_mem new (setAdd xs y) x (setAdd_mem_of_mem y h)

theorem enqueueLinks_mem {host : String} {mp : Nat} {seen : List String} :
    ∀ (links tv : List String) (l : String),
      l ∈ enqueueLinks host mp seen tv links →
      l ∈ tv ∨ App.same_host l host = true
  | [], tv, l, h => Or.inl h
  | li :: links, tv, l, h => by
    unfold enqueueLinks at h
    simp only [List.foldl_cons] at h
    by_cases hc : (!(seen.contains li) && App.same_host li host &&
        decide (seen.length < mp)) = true
    · rw [if_pos hc] at h
      have := enqueueLinks_mem links (tv ++ [li]) l h
      rcases this with hm | hm
      · rw [List.mem_append] at hm
        rcases hm with hm | hm
        · exact Or.inl hm
        · simp only [List.mem_singleton] at hm
          subst hm
          simp only [Bool.and_eq_true] at hc
          exact Or.inr hc.1.2
      · exact Or.inr hm
    · rw [if_neg hc] at h
      exact enqueueLinks_mem links tv l h

theorem foldl_enqueueLinks_mem {host : String} {mp : Nat} {seen : List String} :
    ∀ (results : List (String × List String × List String × Bool))
      (tv : List String) (l : String),
      l ∈ results.foldl (fun tv r => enqueueLinks host mp seen tv r.2.2.1) tv →
      l ∈ tv ∨ App.same_host l host = true
  | [], tv, l, h => Or.inl h
  | r :: results, tv, l, h => by
    simp only [List.foldl_cons] at h
    rcases foldl_enqueueLinks_mem results (enqueueLinks host mp seen tv r.2.2.1) l h with hm | hm
    · exact enqueueLinks_mem _ _ _ hm
    · exact Or.inr hm

theorem foldl_setUnion_mem {x : String} :
    ∀ (results : List (String × List String × List String × Bool))
      (f : List String), x ∈ f →
      x ∈ results.foldl (fun f r => setUnion f r.2.1) f
  | [], _, h => h
  | r :: results, f, h => by
    simp only [List.foldl_cons]
    exact foldl_setUnion_mem results _ (setUnion_mem_of_mem _ _ _ h)

/-- A loop exit keeps seen, the found images and the fetch log exactly as
they were (partial results are preserved, never discarded); the remaining
frontier came from the previous frontier. -/
theorem crawlIterate_inr_spec {env : CrawlEnv} {mp conc : Nat} {host : String}
    {n : Nat} {st fin : CrawlState}
    (h : crawlIterate env mp conc host n st = .inr fin) :
    fin.seen = st.seen ∧ fin.found_images = st.found_images ∧
    fin.fetchedLog = st.fetchedLog ∧ (∀ l ∈ fin.to_visit, l ∈ st.to_visit) := by
  unfold crawlIterate at h
  dsimp only at h
  split at h
  · cases h; exact ⟨rfl, rfl, rfl, fun l hl => hl⟩
  · split at h
    · cases h; exact ⟨rfl, rfl, rfl, fun l hl => hl⟩
    · split at h
      · rename_i hbatch
        obtain ⟨added, h1, h2, h3, h4, h5⟩ := drawBatch_spec host
          (min conc (min st.to_visit.length (mp - st.seen.length))) st.to_visit st.seen []
        have hadded : added = [] := by
          rw [h1] at hbatch
          simpa using hbatch
        cases h
        refine ⟨?_, rfl, rfl, ?_⟩
        · rw [h2, hadded]; simp
        · exact h4
      · exact absurd h (by simp)

/-- A continuing iteration extends seen by host-matching fresh URLs (staying
within budget and duplicate-free), preserves the found images, enqueues only
host-matching links behind the existing frontier, and logs at most as many
fetches as newly visited pages. -/
theorem crawlIterate_inl_spec {env : CrawlEnv} {mp conc : Nat} {host : String}
    {n : Nat} {st st1 : CrawlState}
    (h : crawlIterate env mp conc host n st = .inl st1) :
    (∃ added, st1.seen = st.seen ++ added ∧
       (∀ u ∈ added, App.same_host u host = true) ∧
       (st.seen.Nodup → st1.seen.Nodup) ∧
       st1.seen.length ≤ mp ∧
       st1.fetchedLog.length ≤ st.fetchedLog.length + added.length) ∧
    (∀ x ∈ st.found_images, x ∈ st1.found_images) ∧
    (∀ l ∈ st1.to_visit, l ∈ st.to_visit ∨ App.same_host l host = true) := by
  unfold crawlIterate at h
  dsimp only at h
  split at h
  · exact absurd h (by simp)
  · rename_i hguard
    push_neg at hguard
    split at h
    · exact absurd h (by simp)
    · split at h
      · exact absurd h (by simp)
      · rename_i hbatch
        obtain ⟨added, h1, h2, h3, h4, h5⟩ := drawBatch_spec host
          (min conc (min st.to_visit.length (mp - st.seen.length))) st.to_visit st.seen []
        have hb : (drawBatch host
            (min conc (min st.to_visit.length (mp - st.seen.length)))
            st.to_visit st.seen []).1 = added := by
          rw [h1]; simp
        cases h
        refine ⟨⟨added, ?_, ?_, ?_, ?_, ?_⟩, ?_, ?_⟩
        · exact h2
        · exact fun u hu => (h3 u hu).1
        · intro hnd
          show (drawBatch host _ st.to_visit st.seen []).2.1.Nodup
          rw [h2]
          exact h5.1 hnd
        · show (drawBatch host _ st.to_visit st.seen []).2.1.length ≤ mp
          rw [h2]
          have hk := h5.2
          have h6 : min conc (min st.to_visit.length (mp - st.seen.length)) ≤
              mp - st.seen.length :=
            le_trans (min_le_right _ _) (min_le_right _ _)
          simp only [List.length_append]
          omega
        · show (st.fetchedLog ++ _).length ≤ st.fetchedLog.length + added.length
          simp only [List.length_append, add_le_add_iff_left, List.length_map]
          rw [hb]
          have hle := List.length_filter_le (fun r => r.2.2.2)
            (added.map (fun u => (u, visit env n u)))
          rw [List.length_map] at hle
          exact hle
        · intro x hx
          exact foldl_setUnion_mem _ _ hx
        · intro l hl
          rcases foldl_enqueueLinks_mem _ _ _ hl with hm | hm
          · exact Or.inl (h4 l hm)
          · exact Or.inr hm

theorem crawlLoop_inr {env : CrawlEnv} {mp conc : Nat} {host : String} {n : Nat}
    {st fin : CrawlState} (h : crawlIterate env mp conc host n st = Sum.inr fin) :
    crawlLoop env mp conc host n st = fin := by
  rw [crawlLoop]
  split
  · rename_i fin2 h2
    rw [h] at h2
    injection h2 with h3
    exact h3.symm
  · rename_i st1 h2
    rw [h] at h2
    exact absurd h2 (by simp)

theorem crawlLoop_inl {env : CrawlEnv} {mp conc : Nat} {host : String} {n : Nat}
    {st st1 : CrawlState} (h : crawlIterate env mp conc host n st = Sum.inl st1) :
    crawlLoop env mp conc host n st = crawlLoop env mp conc host (n + 1) st1 := by
  rw [crawlLoop]
  split
  · rename_i fin2 h2
    rw [h] at h2
    exact absurd h2 (by simp)
  · rename_i st2 h2
    rw [h] at h2
    injection h2 with h3
    rw [h3]

/-- One iteration preserves the crawl-state invariant, whether the loop
continues or exits. -/
theorem crawlIterate_preserves_inv {env : CrawlEnv} {mp conc : Nat}
    {host : String} {n : Nat} {st : CrawlState} (hinv : CrawlInv host mp st) :
    (∀ st1, crawlIterate env mp conc host n st = .inl st1 → CrawlInv host mp st1) ∧
    (∀ fin, crawlIterate env mp conc host n st = .inr fin → CrawlInv host mp fin) := by
  obtain ⟨i1, i2, i3, i4, i5⟩ := hinv
  constructor
  · intro st1 h
    obtain ⟨⟨added, hseen, hhost, hnodup, hbound, hlog⟩, hfound, htv⟩ :=
      crawlIterate_inl_spec h
    refine ⟨hbound, hnodup i2, ?_, ?_, ?_⟩
    · intro u hu
      rw [hseen] at hu
      rw [List.mem_append] at hu
      rcases hu with hu | hu
      · exact i3 u hu
      · exact hhost u hu
    · intro u hu
      rcases htv u hu with hm | hm
      · exact i4 u hm
      · exact hm
    · have hlen : st1.seen.length = st.seen.length + added.length := by
        rw [hseen]; simp
      omega
  · intro fin h
    obtain ⟨hseen, hfound, hlog, htv⟩ := crawlIterate_inr_spec h
    exact ⟨by rw [hseen]; exact i1, by rw [hseen]; exact i2,
      by rw [hseen]; exact i3, fun u hu => i4 u (htv u hu),
      by rw [hseen, hlog]; exact i5⟩

/-- Whole-loop facts: the visited count only grows, discovered images are
never dropped, and the crawl-state invariant is preserved to the final
state. -/
theorem crawlLoop_spec (env : CrawlEnv) (mp conc : Nat) (host : String) :
    ∀ (n : Nat) (st : CrawlState),
      st.seen.length ≤ (crawlLoop env mp conc host n st).seen.length ∧
      (∀ x ∈ st.found_images, x ∈ (crawlLoop env mp conc host n st).found_images) ∧
      (CrawlInv host mp st → CrawlInv host mp (crawlLoop env mp conc host n st)) := by
  intro n st
  induction n, st using crawlLoop.induct env mp conc host with
  | case1 n st fin h =>
    obtain ⟨hseen, hfound, hlog, htv⟩ := crawlIterate_inr_spec h
    rw [crawlLoop_inr h]
    refine ⟨by rw [hseen], fun x hx => by rw [hfound]; exact hx, ?_⟩
    intro hinv
    exact (crawlIterate_preserves_inv hinv).2 fin h
  | case2 n st st1 h ih =>
    obtain ⟨⟨added, hseen, hhost, hnodup, hbound, hlog⟩, hfound, htv⟩ :=
      crawlIterate_inl_spec h
    rw [crawlLoop_inl h]
    obtain ⟨ih1, ih2, ih3⟩ := ih
    refine ⟨?_, ?_, ?_⟩
    · calc st.seen.length ≤ st1.seen.length := by rw [hseen]; simp
        _ ≤ _ := ih1
    · intro x hx
      exact ih2 x (hfound x hx)
    · intro hinv
      exact ih3 ((crawlIterate_preserves_inv hinv).1 st1 h)

/-! ### The resource size prober (app.py get_head_size / fetch_sizes_async)

The HEAD transport is an oracle: `probe u = none` models a raised exception
(timeout, connection error); `probe u = some r` models a completed response
with its status code and raw content-length header.  Note get_head_size never
inspects the status. -/

structure HeadResponse where
  status : Nat
  contentLength : Option String
deriving Repr, DecidableEq

/-- app.py get_head_size: `int(content-length)/1024` when the header is a
truthy digit string, else 0.0 (also on any raised exception). -/
def get_head_size (probe : String → Option HeadResponse) (url : String) : ℚ :=
  match probe url with
  | none => 0
  | some r =>
    match r.contentLength with
    | none => 0
    | some cl => if pyIsDigit cl then (pyToNat cl : ℚ) / 1024 else 0

/-- Python's `round(x, 2)` modelled on rationals (ties, which Python rounds
to even, do not occur in any property below). -/
def round2 (q : ℚ) : ℚ := ((round (q * 100) : ℤ) : ℚ) / 100

/-- app.py fetch_sizes_async: one worker per URL, each rounding its
get_head_size result; asyncio.gather returns the results in input order once
every worker has resolved. -/
def fetch_sizes_async (probe : String → Option HeadResponse)
    (urls : List String) : List ℚ :=
  urls.map (fun u => round2 (get_head_size probe u))

/-! ### The result reducer (app.py lines 255-278) -/

structure ImgRecord where
  url : String
  size : ℚ
  filename : String
deriving Repr, DecidableEq

/-- The Filename column: `u.split("/")[-1].split("?")[0]`. -/
def filenameOf (u : String) : String :=
  let last := (splitOnChar '/' u).getLastD u
  (splitOnChar '?' last).headD last

/-- One record per discovered URL with its probed size and derived
filename. -/
def buildRecords (xs : List (String × ℚ)) : List ImgRecord :=
  xs.map (fun p => { url := p.1, size := p.2, filename := filenameOf p.1 })

/-- The descending-by-size order used by `sort_values(ascending=False)`. -/
def sizeGE (a b : ImgRecord) : Prop := b.size ≤ a.size

instance : DecidableRel sizeGE := fun a b =>
  inferInstanceAs (Decidable (b.size ≤ a.size))

instance : IsTotal ImgRecord sizeGE := ⟨fun a b => le_total b.size a.size⟩

instance : IsTrans ImgRecord sizeGE :=
  ⟨fun _ _ _ hab hbc => le_trans hbc hab⟩

/-- Sort descending by size.  (pandas uses an unstable quicksort; every
property proved below depends only on sortedness and permutation, so any
sorted rearrangement gives the same result.) -/
def sortBySizeDesc (rs : List ImgRecord) : List ImgRecord :=
  List.insertionSort sizeGE rs

/-- `drop_duplicates(subset="Filename", keep="first")`: keep the first
record of each filename, in order. -/
def dropDupFilename (seen : List String) : List ImgRecord → List ImgRecord
  | [] => []
  | r :: rs =>
    if seen.contains r.filename then dropDupFilename seen rs
    else r :: dropDupFilename (r.filename :: seen) rs

/-- os.path.splitext on a plain filename (no path separator): split at the
last dot, unless every character before it is also a dot. -/
def splitext (f : String) : String × String :=
  let cs := f.data
  match cs.reverse.findIdx? (fun c => c = '.') with
  | none => (f, "")
  | some ridx =>
    let d := cs.length - 1 - ridx
    if (cs.take d).any (fun c => c ≠ '.') then
      (String.mk (cs.take d), String.mk (cs.drop d))
    else (f, "")

/-- The regex `[A-Za-z0-9]+` findall: maximal ASCII-alphanumeric runs. -/
def alnumRuns : List Char → List String
  | [] => []
  | c :: cs =>
    if h : c.isAlphanum then
      String.mk ((c :: cs).takeWhile Char.isAlphanum) ::
        alnumRuns ((c :: cs).dropWhile Char.isAlphanum)
    else alnumRuns cs
termination_by l => l.length
decreasing_by
  · rw [List.dropWhile_cons_of_pos h]
    simp only [List.length_cons]
    exact Nat.lt_succ_of_le (length_dropWhile_le _ _)
  · simp

/-- A row of the final table: URL, Filename, Size (KB), Part1..Part4 (as a
list of at most 4 tokens), FileType. -/
structure Row where
  url : String
  filename : String
  size : ℚ
  parts : List String
  filetype : String
deriving Repr, DecidableEq

/-- Derive the token and file-type columns for one deduplicated record. -/
def mkRow (r : ImgRecord) : Row :=
  { url := r.url, filename := r.filename, size := r.size,
    parts := (alnumRuns (splitext r.filename).1.data).take 4,
    filetype := pyLower (pyLStripChars ['.'] (splitext r.filename).2) }

/-- The sort-then-dedup stage (app.py line 261). -/
def sortDedup (xs : List (String × ℚ)) : List ImgRecord :=
  dropDupFilename [] (sortBySizeDesc (buildRecords xs))

/-- The size filter (app.py lines 274-278): with a positive max the size
must lie in [min, max], otherwise only the min bound applies. -/
def sizeKeep (minKB maxKB : ℚ) (s : ℚ) : Bool :=
  if 0 < maxKB then decide (minKB ≤ s) && decide (s ≤ maxKB)
  else decide (minKB ≤ s)

/-- The whole Reducer pipeline (app.py lines 255-278): build records, sort
descending by size, dedup by filename keeping the first, derive token and
file-type columns, apply the size filter. -/
def reduceTable (minKB maxKB : ℚ) (xs : List (String × ℚ)) : List Row :=
  ((sortDedup xs).map mkRow).filter (fun r => sizeKeep minKB maxKB r.size)

/-! ### Reducer lemmas -/

/-- Filename-key test for dedup reasoning. -/
def keyIs (f : String) (r : ImgRecord) : Bool := r.filename == f

theorem dropDup_filter_key (f : String) :
    ∀ (l : List ImgRecord) (seen : List String),
      (dropDupFilename seen l).filter (keyIs f) =
        if f ∈ seen then [] else (l.filter (keyIs f)).take 1 := by
  intro l
  induction l with
  | nil =>
    intro seen
    simp [dropDupFilename]
  | cons r rs ih =>
    intro seen
    rw [dropDupFilename]
    by_cases hs : (seen.contains r.filename) = true
    · rw [if_pos hs, ih seen]
      by_cases hf : f ∈ seen
      · rw [if_pos hf, if_pos hf]
      · have hrf : ¬(keyIs f r) = true := by
          simp only [keyIs, beq_iff_eq]
          intro heq
          exact hf (heq ▸ (by simpa using hs))
        rw [if_neg hf, if_neg hf, List.filter_cons_of_neg hrf]
    · rw [if_neg hs]
      have hrs : r.filename ∉ seen := by simpa using hs
      by_cases hrf : (keyIs f r) = true
      · have hreq : r.filename = f := by simpa [keyIs] using hrf
        have hf : f ∉ seen := hreq ▸ hrs
        rw [if_neg hf, List.filter_cons_of_pos hrf, ih (r.filename :: seen),
          if_pos (by simp [hreq]), List.filter_cons_of_pos hrf]
        simp
      · rw [List.filter_cons_of_neg hrf, ih (r.filename :: seen)]
        have hne : f ≠ r.filename := by
          intro heq
          exact hrf (by simp [keyIs, heq])
        by_cases hf : f ∈ seen
        · rw [if_pos (by simp [hf]), if_pos hf]
        · rw [if_neg (by simp [hne, hf]), if_neg hf, List.filter_cons_of_neg hrf]

theorem dropDup_sublist :
    ∀ (l : List ImgRecord) (seen : List String),
      (dropDupFilename seen l).Sublist l := by
  intro l
  induction l with
  | nil => intro seen; simp [dropDupFilename]
  | cons r rs ih =>
    intro seen
    rw [dropDupFilename]
    split
    · exact (ih seen).cons r
    · exact (ih (r.filename :: seen)).cons₂ r

theorem dropDup_keys :
    ∀ (l : List ImgRecord) (seen : List String),
      (dropDupFilename seen l).Pairwise (fun a b => a.filename ≠ b.filename) ∧
      ∀ r ∈ dropDupFilename seen l, r.filename ∉ seen := by
  intro l
  induction l with
  | nil => intro seen; simp [dropDupFilename]
  | cons r rs ih =>
    intro seen
    rw [dropDupFilename]
    split
    · exact ih seen
    · rename_i hs
      have hrs : r.filename ∉ seen := by simpa using hs
      obtain ⟨ihp, ihm⟩ := ih (r.filename :: seen)
      refine ⟨List.pairwise_cons.mpr ⟨?_, ihp⟩, ?_⟩
      · intro b hb heq
        exact ihm b hb (heq ▸ List.mem_cons_self _ _)
      · intro x hx
        rw [List.mem_cons] at hx
        rcases hx with rfl | hx
        · exact hrs
        · exact fun hmem => ihm x hx (List.mem_cons_of_mem _ hmem)

theorem dropDup_eq_self :
    ∀ (l : List ImgRecord) (seen : List String),
      l.Pairwise (fun a b => a.filename ≠ b.filename) →
      (∀ r ∈ l, r.filename ∉ seen) →
      dropDupFilename seen l = l := by
  intro l
  induction l with
  | nil => intro seen _ _; simp [dropDupFilename]
  | cons r rs ih =>
    intro seen hp hm
    rw [dropDupFilename]
    rw [List.pairwise_cons] at hp
    have hrs : r.filename ∉ seen := hm r (List.mem_cons_self _ _)
    rw [if_neg (by simpa using hrs)]
    congr 1
    apply ih _ hp.2
    intro x hx
    rw [List.mem_cons]
    push_neg
    refine ⟨?_, fun hmem => hm x (List.mem_cons_of_mem _ hx) hmem⟩
    intro heq
    exact hp.1 x hx heq.symm

/-- Every record surviving sortDedup keeps its source filename invariant. -/
theorem sortDedup_mem {xs : List (String × ℚ)} {r : ImgRecord}
    (h : r ∈ sortDedup xs) : r ∈ buildRecords xs := by
  unfold sortDedup sortBySizeDesc at h
  have h1 := List.Sublist.mem h (dropDup_sublist _ [])
  exact (List.perm_insertionSort sizeGE (buildRecords xs)).mem_iff.mp h1

theorem sortDedup_sorted (xs : List (String × ℚ)) :
    (sortDedup xs).Sorted sizeGE := by
  unfold sortDedup sortBySizeDesc
  exact List.Pairwise.sublist (dropDup_sublist _ [])
    (List.sorted_insertionSort sizeGE (buildRecords xs))

theorem sorted_filter_head_max {l : List ImgRecord} (hs : l.Sorted sizeGE)
    (f : String) {g0 : ImgRecord} {rest : List ImgRecord}
    (h : l.filter (keyIs f) = g0 :: rest) :
    ∀ r ∈ l.filter (keyIs f), r.size ≤ g0.size := by
  have hsf : (l.filter (keyIs f)).Sorted sizeGE := List.Pairwise.filter _ hs
  rw [h] at hsf ⊢
  intro r hr
  rw [List.mem_cons] at hr
  rcases hr with rfl | hr
  · exact le_rfl
  · exact List.rel_of_sorted_cons hsf r hr

/-- Every sortDedup survivor carries the filename derived from its URL. -/
theorem buildRecords_filename {xs : List (String × ℚ)} {r : ImgRecord}
    (h : r ∈ buildRecords xs) : r.filename = filenameOf r.url := by
  unfold buildRecords at h
  rw [List.mem_map] at h
  obtain ⟨p, _, rfl⟩ := h
  rfl

/-- C8: whenever records share a derived filename with pairwise-different
sizes, the sort-descending-then-dedup-by-filename stage keeps exactly one
record for that filename, and it is the one with the strictly largest
size. -/
theorem claim_C8 (xs : List (String × ℚ)) (f : String)
    (hex : ∃ r ∈ buildRecords xs, r.filename = f)
    (hdist : (buildRecords xs).Pairwise
      (fun a b => a.filename = f → b.filename = f → a.size ≠ b.size)) :
    ∃ rec : ImgRecord,
      (sortDedup xs).filter (keyIs f) = [rec] ∧
      rec ∈ buildRecords xs ∧ rec.filename = f ∧
      ∀ r ∈ buildRecords xs, r.filename = f → r ≠ rec → r.size < rec.size := by
  have hperm : (sortBySizeDesc (buildRecords xs)).Perm (buildRecords xs) :=
    List.perm_insertionSort _ _
  have hpermf : ((sortBySizeDesc (buildRecords xs)).filter (keyIs f)).Perm
      ((buildRecords xs).filter (keyIs f)) := hperm.filter _
  obtain ⟨r0, hr0, hr0f⟩ := hex
  have h1 : r0 ∈ (buildRecords xs).filter (keyIs f) :=
    List.mem_filter.mpr ⟨hr0, by simp [keyIs, hr0f]⟩
  have h2 : (sortBySizeDesc (buildRecords xs)).filter (keyIs f) ≠ [] := by
    intro hcon
    have hm := hpermf.mem_iff.mpr h1
    rw [hcon] at hm
    simp at hm
  obtain ⟨g0, rest, hg⟩ : ∃ g0 rest,
      (sortBySizeDesc (buildRecords xs)).filter (keyIs f) = g0 :: rest := by
    cases hlf : (sortBySizeDesc (buildRecords xs)).filter (keyIs f) with
    | nil => exact absurd hlf h2
    | cons a b => exact ⟨a, b, rfl⟩
  have hdd : (sortDedup xs).filter (keyIs f) = [g0] := by
    unfold sortDedup
    rw [dropDup_filter_key f (sortBySizeDesc (buildRecords xs)) [],
      if_neg (by simp), hg]
    simp
  have hg0mem : g0 ∈ (sortBySizeDesc (buildRecords xs)).filter (keyIs f) := by
    rw [hg]; simp
  have hg0l : g0 ∈ buildRecords xs :=
    hperm.mem_iff.mp (List.mem_of_mem_filter hg0mem)
  have hg0f : g0.filename = f := by
    have := (List.mem_filter.mp hg0mem).2
    simpa [keyIs] using this
  refine ⟨g0, hdd, hg0l, hg0f, ?_⟩
  intro r hr hrf hne
  have hrl : r ∈ (sortBySizeDesc (buildRecords xs)).filter (keyIs f) :=
    hpermf.mem_iff.mpr (List.mem_filter.mpr ⟨hr, by simp [keyIs, hrf]⟩)
  have hle : r.size ≤ g0.size :=
    sorted_filter_head_max (List.sorted_insertionSort _ _) f hg r hrl
  have hsymm : Symmetric (fun a b : ImgRecord =>
      a.filename = f → b.filename = f → a.size ≠ b.size) := by
    intro a b hab hbf haf heq
    exact hab haf hbf heq.symm
  have hne2 : r.size ≠ g0.size := hdist.forall hsymm hr hg0l hne hrf hg0f
  exact lt_of_le_of_ne hle hne2

/-- C8 witness: two records share the filename a.jpg with sizes 5 and 7; the
dedup stage keeps exactly the 7 KB record. -/
theorem claim_C8_witness :
    ((∃ r ∈ buildRecords
        [("http://h/a.jpg", (5 : ℚ)), ("http://h2/x/a.jpg", 7), ("http://h/b.png", 3)],
        r.filename = "a.jpg") ∧
     (buildRecords
        [("http://h/a.jpg", (5 : ℚ)), ("http://h2/x/a.jpg", 7), ("http://h/b.png", 3)]).Pairwise
        (fun a b => a.filename = "a.jpg" → b.filename = "a.jpg" → a.size ≠ b.size)) ∧
    (∃ rec : ImgRecord,
      (sortDedup
        [("http://h/a.jpg", (5 : ℚ)), ("http://h2/x/a.jpg", 7), ("http://h/b.png", 3)]).filter
          (keyIs "a.jpg") = [rec] ∧
      rec ∈ buildRecords
        [("http://h/a.jpg", (5 : ℚ)), ("http://h2/x/a.jpg", 7), ("http://h/b.png", 3)] ∧
      rec.filename = "a.jpg" ∧
      ∀ r ∈ buildRecords
        [("http://h/a.jpg", (5 : ℚ)), ("http://h2/x/a.jpg", 7), ("http://h/b.png", 3)],
        r.filename = "a.jpg" → r ≠ rec → r.size < rec.size) :=
  ⟨⟨by decide, by decide⟩,
   claim_C8 [("http://h/a.jpg", (5 : ℚ)), ("http://h2/x/a.jpg", 7), ("http://h/b.png", 3)]
     "a.jpg" (by decide) (by decide)⟩

/-! ### Claim theorems -/

/-- Network oracle where every fetch fails (or returns a non-text response)
and the stop flag is never set. -/
def envFailAll : CrawlEnv :=
  { fetch := fun _ => none, stopPre := fun _ => false, stopWorker := fun _ _ => false }

/-- Oracle where the stop flag is already set at every checkpoint. -/
def envStopped : CrawlEnv :=
  { fetch := fun _ => some ([], []), stopPre := fun _ => true,
    stopWorker := fun _ _ => true }

/-- C1: for every crawl with maxPages ≥ 1 and concurrency ≥ 1, the visited
set always holds at most maxPages distinct URLs, and every URL in the
frontier (after the seed) and every URL drawn for fetching has authority
exactly equal to the starting URL's host: the invariant holds initially, is
preserved by every loop iteration (so it holds at every point during the
crawl), holds of the final state, and bounds the returned pagesVisited
count. -/
theorem claim_C1 (env : CrawlEnv) (base_url : String) (mp conc : Nat)
    (hmp : 1 ≤ mp) (hconc : 1 ≤ conc) :
    CrawlInv (urlsplitM base_url).netloc mp (initState base_url) ∧
    (∀ (n : Nat) (st : CrawlState), CrawlInv (urlsplitM base_url).netloc mp st →
      (∀ st1, crawlIterate env mp conc (urlsplitM base_url).netloc n st = .inl st1 →
        CrawlInv (urlsplitM base_url).netloc mp st1) ∧
      (∀ fin, crawlIterate env mp conc (urlsplitM base_url).netloc n st = .inr fin →
        CrawlInv (urlsplitM base_url).netloc mp fin)) ∧
    CrawlInv (urlsplitM base_url).netloc mp (crawlFinal env base_url mp conc) ∧
    (crawl_site env base_url mp conc).2 ≤ mp := by
  have hinit : CrawlInv (urlsplitM base_url).netloc mp (initState base_url) := by
    refine ⟨by simp [initState], by simp [initState], by simp [initState], ?_,
      by simp [initState]⟩
    intro u hu
    simp only [initState, List.mem_singleton] at hu
    subst hu
    simp [App.same_host]
  have hfin : CrawlInv (urlsplitM base_url).netloc mp
      (crawlFinal env base_url mp conc) :=
    (crawlLoop_spec env mp conc (urlsplitM base_url).netloc 0
      (initState base_url)).2.2 hinit
  refine ⟨hinit, fun n st hinv => crawlIterate_preserves_inv hinv, hfin, ?_⟩
  exact hfin.1

/-- C1 witness at a concrete crawl: base http://h/p, maxPages 2,
concurrency 1, every fetch failing. -/
theorem claim_C1_witness :
    ((1 : Nat) ≤ 2 ∧ (1 : Nat) ≤ 1) ∧
    (CrawlInv (urlsplitM "http://h/p").netloc 2 (initState "http://h/p") ∧
     (crawl_site envFailAll "http://h/p" 2 1).2 ≤ 2) :=
  ⟨⟨by decide, by decide⟩,
   (claim_C1 envFailAll "http://h/p" 2 1 (by decide) (by decide)).1,
   (claim_C1 envFailAll "http://h/p" 2 1 (by decide) (by decide)).2.2.2⟩

/-- C2: cooperative cancellation.  (i) If the stop flag is set at the
pre-batch checkpoint the iteration exits immediately with the state — hence
the partial results — unchanged, (ii) so the whole loop returns that state
as-is; (iii) a worker that observes the stop flag performs no fetch and
returns empty results; (iv) the final pagesVisited count is at least the
count at any intermediate state (in particular at the moment of
cancellation) and at most maxPages, and no discovered image is dropped. -/
theorem claim_C2 (env : CrawlEnv) (host : String) (mp conc : Nat) :
    (∀ (n : Nat) (st : CrawlState), env.stopPre n = true →
      crawlIterate env mp conc host n st = .inr st) ∧
    (∀ (n : Nat) (st : CrawlState), env.stopPre n = true →
      crawlLoop env mp conc host n st = st) ∧
    (∀ (n : Nat) (u : String), env.stopWorker n u = true →
      visit env n u = ([], [], false)) ∧
    (∀ (n : Nat) (st : CrawlState),
      st.seen.length ≤ (crawlLoop env mp conc host n st).seen.length ∧
      (∀ x ∈ st.found_images, x ∈ (crawlLoop env mp conc host n st).found_images) ∧
      (CrawlInv host mp st → (crawlLoop env mp conc host n st).seen.length ≤ mp)) := by
  have hpre : ∀ (n : Nat) (st : CrawlState), env.stopPre n = true →
      crawlIterate env mp conc host n st = .inr st := by
    intro n st hstop
    unfold crawlIterate
    split
    · rfl
    · simp [hstop]
  refine ⟨hpre, ?_, ?_, ?_⟩
  · intro n st hstop
    exact crawlLoop_inr (hpre n st hstop)
  · intro n u hstop
    simp [visit, hstop]
  · intro n st
    obtain ⟨h1, h2, h3⟩ := crawlLoop_spec env mp conc host n st
    exact ⟨h1, h2, fun hinv => (h3 hinv).1⟩

/-- C2 witness: with the stop flag set everywhere, the crawl from the seed
state returns it unchanged, the worker fetches nothing, and the count bound
holds. -/
theorem claim_C2_witness :
    (envStopped.stopPre 0 = true ∧ envStopped.stopWorker 0 "http://h/p" = true ∧
     CrawlInv "h" 3 (initState "http://h/p")) ∧
    (crawlLoop envStopped 3 1 "h" 0 (initState "http://h/p") = initState "http://h/p" ∧
     visit envStopped 0 "http://h/p" = ([], [], false) ∧
     (crawlLoop envStopped 3 1 "h" 0 (initState "http://h/p")).seen.length ≤ 3) :=
  ⟨⟨rfl, rfl, by unfold CrawlInv initState; decide⟩,
   (claim_C2 envStopped "h" 3 1).2.1 0 (initState "http://h/p") rfl,
   (claim_C2 envStopped "h" 3 1).2.2.1 0 "http://h/p" rfl,
   ((claim_C2 envStopped "h" 3 1).2.2.2 0 (initState "http://h/p")).2.2
     (by unfold CrawlInv initState; decide)⟩

/-- C10: pagesVisited equals the number of URLs marked visited at dispatch
time; the number of pages actually fetched and parsed never exceeds it; and
it can be strictly larger — with every fetch failing, the crawl of
http://h/p reports one visited page while zero pages were fetched and
parsed. -/
theorem claim_C10 :
    (∀ (env : CrawlEnv) (base : String) (mp conc : Nat),
      (crawl_site env base mp conc).2 = (crawlFinal env base mp conc).seen.length) ∧
    (∀ (env : CrawlEnv) (base : String) (mp conc : Nat),
      (crawlFinal env base mp conc).fetchedLog.length ≤ (crawl_site env base mp conc).2) ∧
    ((crawl_site envFailAll "http://h/p" 5 2).2 = 1 ∧
     (crawlFinal envFailAll "http://h/p" 5 2).fetchedLog = []) := by
  have hcount : ∀ (env : CrawlEnv) (base : String) (mp conc : Nat),
      (crawl_site env base mp conc).2 = (crawlFinal env base mp conc).seen.length :=
    fun env base mp conc => rfl
  have hinit : ∀ base : String, CrawlInv (urlsplitM base).netloc 1000000
      (initState base) := by
    intro base
    refine ⟨by simp [initState], by simp [initState], by simp [initState], ?_,
      by simp [initState]⟩
    intro u hu
    simp only [initState, List.mem_singleton] at hu
    subst hu
    simp [App.same_host]
  refine ⟨hcount, ?_, ?_⟩
  · intro env base mp conc
    have hinit2 : CrawlInv (urlsplitM base).netloc mp (initState base) := by
      refine ⟨by simp [initState], by simp [initState], by simp [initState], ?_,
        by simp [initState]⟩
      intro u hu
      simp only [initState, List.mem_singleton] at hu
      subst hu
      simp [App.same_host]
    have hfin := (crawlLoop_spec env mp conc (urlsplitM base).netloc 0
      (initState base)).2.2 hinit2
    exact hfin.2.2.2.2
  · have hit1 : crawlIterate envFailAll 5 2 (urlsplitM "http://h/p").netloc 0
        (initState "http://h/p") = .inl
        { seen := ["http://h/p"], to_visit := [], found_images := [],
          fetchedLog := [] } := by decide
    have hit2 : crawlIterate envFailAll 5 2 (urlsplitM "http://h/p").netloc 1
        { seen := ["http://h/p"], to_visit := [], found_images := [],
          fetchedLog := [] } = .inr
        { seen := ["http://h/p"], to_visit := [], found_images := [],
          fetchedLog := [] } := by decide
    have hfin : crawlFinal envFailAll "http://h/p" 5 2 =
        { seen := ["http://h/p"], to_visit := [], found_images := [],
          fetchedLog := [] } := by
      unfold crawlFinal
      rw [crawlLoop_inl hit1, crawlLoop_inr hit2]
    refine ⟨?_, ?_⟩
    · rw [hcount, hfin]
      rfl
    · rw [hfin]

/-- C3 (the spec is the intent, app.py has the slip): on a srcset holding an
empty comma-separated candidate, app.py's `part.strip().split()[0]` raises
IndexError (Except.error here) instead of returning normally, while
backend.py's `if part:` guard skips it; an absent or empty HTML string (the
empty document) yields empty sets everywhere. -/
theorem claim_C3 :
    App.extract_images_from_html "http://h/p"
      [{ name := "img", attrs := [("srcset", "a.jpg,")], innerText := "" }] [] =
      .error () ∧
    App.extract_images_from_html "http://h/p" [] [] = .ok [] ∧
    App.extract_links "http://h/p" [] = [] ∧
    Backend.extract_images_from_html "http://h/p" [] = [] ∧
    Backend.extract_links "http://h/p" [] = [] ∧
    Backend.extract_images_from_html "http://h/p"
      [{ name := "img", attrs := [("srcset", "a.jpg,")], innerText := "" }] =
      ["http://h/a.jpg"] :=
  ⟨by decide, by decide, by decide, by decide, by decide, by decide⟩

/-- No member of the found-image set is an excluded URL. -/
def NoExcluded (s : List String) : Prop :=
  ∀ u ∈ s, App.is_excluded u = false

theorem setAdd_mem_cases {xs : List String} {x u : String}
    (h : u ∈ setAdd xs x) : u ∈ xs ∨ u = x := by
  unfold setAdd at h
  split at h
  · exact Or.inl h
  · rw [List.mem_append] at h
    rcases h with h | h
    · exact Or.inl h
    · exact Or.inr (by simpa using h)

theorem addCandidateCtx_noExcluded {base : String} {kws : List String}
    {ctx c : String} {acc : List String} (h : NoExcluded acc) :
    NoExcluded (App.addCandidateCtx base kws ctx c acc) := by
  intro u hu
  unfold App.addCandidateCtx at hu
  dsimp only at hu
  split at hu
  · rename_i hcond
    split at hu
    · rcases setAdd_mem_cases hu with hu | rfl
      · exact h u hu
      · simp only [Bool.and_eq_true, Bool.not_eq_true'] at hcond
        exact hcond.2
    · exact h u hu
  · exact h u hu

theorem addCandidateUrlOnly_noExcluded {base : String} {kws : List String}
    {c : String} {acc : List String} (h : NoExcluded acc) :
    NoExcluded (App.addCandidateUrlOnly base kws c acc) := by
  intro u hu
  unfold App.addCandidateUrlOnly at hu
  dsimp only at hu
  split at hu
  · rename_i hcond
    split at hu
    · rcases setAdd_mem_cases hu with hu | rfl
      · exact h u hu
      · simp only [Bool.and_eq_true, Bool.not_eq_true'] at hcond
        exact hcond.2
    · exact h u hu
  · exact h u hu

theorem foldl_noExcluded {β : Type} (step : List String → β → List String)
    (hstep : ∀ (acc : List String) (b : β), NoExcluded acc → NoExcluded (step acc b)) :
    ∀ (l : List β) (acc : List String), NoExcluded acc →
      NoExcluded (l.foldl step acc)
  | [], _, h => h
  | b :: l, acc, h =>
    foldl_noExcluded step hstep l (step acc b) (hstep acc b h)

theorem foldlM_noExcluded {β : Type}
    (step : List String → β → Except Unit (List String))
    (hstep : ∀ (acc : List String) (b : β) (s : List String),
      NoExcluded acc → step acc b = .ok s → NoExcluded s) :
    ∀ (l : List β) (acc s : List String),
      NoExcluded acc → l.foldlM step acc = .ok s → NoExcluded s := by
  intro l
  induction l with
  | nil =>
    intro acc s h heq
    rw [List.foldlM_nil] at heq
    injection heq with h2
    rwa [← h2]
  | cons b l ih =>
    intro acc s h heq
    rw [List.foldlM_cons] at heq
    cases hb : step acc b with
    | error e =>
      rw [hb] at heq
      exact absurd heq (by simp [Bind.bind, Except.bind])
    | ok a =>
      rw [hb] at heq
      simp only [Bind.bind, Except.bind] at heq
      exact ih a s (hstep acc b a h hb) heq

theorem processImg_noExcluded {base : String} {kws : List String}
    {acc s : List String} {img : Tag}
    (h : NoExcluded acc) (heq : App.processImg base kws acc img = .ok s) :
    NoExcluded s := by
  unfold App.processImg at heq
  dsimp only at heq
  have hacc1 : NoExcluded
      ((["src", "data-src", "data-original", "data-lazy"].map img.get).foldl
        (fun a c =>
          match c with
          | some s =>
            if s ≠ "" then
              App.addCandidateCtx base kws
                (((img.get "alt").getD "") ++ " " ++ ((img.get "title").getD "")) s a
            else a
          | none => a) acc) := by
    refine foldl_noExcluded _ ?_ _ _ h
    intro a c ha
    cases c with
    | none => exact ha
    | some v =>
      dsimp only
      split
      · exact addCandidateCtx_noExcluded ha
      · exact ha
  cases hs : img.get "srcset" with
  | none =>
    rw [hs] at heq
    injection heq with h2
    rwa [← h2]
  | some srcset =>
    rw [hs] at heq
    dsimp only at heq
    split at heq
    · injection heq with h2
      rwa [← h2]
    · refine foldlM_noExcluded _ ?_ _ _ _ hacc1 heq
      intro a part s2 ha hstep
      cases hw : pySplitWs (pyStrip part) with
      | nil =>
        rw [hw] at hstep
        exact absurd hstep (by simp)
      | cons u0 rest =>
        rw [hw] at hstep
        injection hstep with h3
        rw [← h3]
        exact addCandidateCtx_noExcluded ha

/-- C4 amended: app.py's extractor never emits a URL containing an excluded
keyword (logo, icon, favicon), whatever the page, document or keyword
filter; backend.py's extractor applies no such exclusion (see the
counterexample). -/
theorem claim_C4 (base : String) (doc : List Tag) (kws : List String)
    (s : List String)
    (h : App.extract_images_from_html base doc kws = .ok s) :
    ∀ u ∈ s, App.is_excluded u = false := by
  unfold App.extract_images_from_html at h
  simp only [bind, Except.bind, pure, Except.pure] at h
  cases hf : (doc.filter (fun t => t.name == "img")).foldlM
      (App.processImg base kws) ([] : List String) with
  | error e =>
    rw [hf] at h
    exact absurd h (by simp)
  | ok s1 =>
    rw [hf] at h
    injection h with h2
    have h1 : NoExcluded s1 := by
      refine foldlM_noExcluded _ ?_ _ _ _ ?_ hf
      · intro acc b s2 hacc hstep
        exact processImg_noExcluded hacc hstep
      · intro u hu
        exact absurd hu (List.not_mem_nil u)
    have hs2 : NoExcluded
        ((doc.filter (fun t => (t.get "style").isSome)).foldl
          (App.processStyleAttr base kws) s1) := by
      refine foldl_noExcluded _ ?_ _ _ h1
      intro acc v ha
      unfold App.processStyleAttr
      cases v.get "style" with
      | none => exact ha
      | some style =>
        dsimp only
        refine foldl_noExcluded _ ?_ _ _ ha
        intro a u ha2
        exact addCandidateCtx_noExcluded ha2
    have hs3 : NoExcluded
        ((doc.filter (fun t => t.name == "style")).foldl
          (App.processStyleBlock base kws)
          ((doc.filter (fun t => (t.get "style").isSome)).foldl
            (App.processStyleAttr base kws) s1)) := by
      refine foldl_noExcluded _ ?_ _ _ hs2
      intro acc v ha
      unfold App.processStyleBlock
      refine foldl_noExcluded _ ?_ _ _ ha
      intro a u ha2
      exact addCandidateUrlOnly_noExcluded ha2
    have hs4 : NoExcluded
        ((doc.filter (fun t => t.name == "meta" && (t.get "content").isSome)).foldl
          (App.processMeta base kws)
          ((doc.filter (fun t => t.name == "style")).foldl
            (App.processStyleBlock base kws)
            ((doc.filter (fun t => (t.get "style").isSome)).foldl
              (App.processStyleAttr base kws) s1))) := by
      refine foldl_noExcluded _ ?_ _ _ hs3
      intro acc v ha
      unfold App.processMeta
      cases v.get "content" with
      | none => exact ha
      | some cc =>
        dsimp only
        split
        · exact addCandidateUrlOnly_noExcluded ha
        · exact ha
    have hs5 : NoExcluded
        ((doc.filter (fun t => t.name == "link" && (t.get "href").isSome)).foldl
          (App.processLink base kws)
          ((doc.filter (fun t => t.name == "meta" && (t.get "content").isSome)).foldl
            (App.processMeta base kws)
            ((doc.filter (fun t => t.name == "style")).foldl
              (App.processStyleBlock base kws)
              ((doc.filter (fun t => (t.get "style").isSome)).foldl
                (App.processStyleAttr base kws) s1)))) := by
      refine foldl_noExcluded _ ?_ _ _ hs4
      intro acc v ha
      unfold App.processLink
      cases v.get "href" with
      | none => exact ha
      | some href =>
        dsimp only
        split
        · exact addCandidateUrlOnly_noExcluded ha
        · exact ha
    have hs6 : NoExcluded
        ((doc.filter (fun t => t.name == "video" && (t.get "poster").isSome)).foldl
          (App.processVideo base kws)
          ((doc.filter (fun t => t.name == "link" && (t.get "href").isSome)).foldl
            (App.processLink base kws)
            ((doc.filter (fun t => t.name == "meta" && (t.get "content").isSome)).foldl
              (App.processMeta base kws)
              ((doc.filter (fun t => t.name == "style")).foldl
                (App.processStyleBlock base kws)
                ((doc.filter (fun t => (t.get "style").isSome)).foldl
                  (App.processStyleAttr base kws) s1))))) := by
      refine foldl_noExcluded _ ?_ _ _ hs5
      intro acc v ha
      unfold App.processVideo
      cases v.get "poster" with
      | none => exact ha
      | some p =>
        dsimp only
        split
        · exact addCandidateCtx_noExcluded ha
        · exact ha
    rw [← h2]
    exact hs6

/-- C4 counterexample: backend.py's extractor happily returns a URL
containing the excluded keyword logo. -/
theorem claim_C4_counterexample :
    Backend.extract_images_from_html "http://h/"
      [{ name := "img", attrs := [("src", "logo.png")], innerText := "" }] =
      ["http://h/logo.png"] ∧
    App.is_excluded "http://h/logo.png" = true ∧
    App.extract_images_from_html "http://h/"
      [{ name := "img", attrs := [("src", "logo.png")], innerText := "" }] [] =
      .ok [] :=
  ⟨by decide, by decide, by decide⟩

/-- C4 witness: a concrete extraction that returns ok, to which the amended
theorem applies. -/
theorem claim_C4_witness :
    (App.extract_images_from_html "http://h/"
      [{ name := "img", attrs := [("src", "a.jpg")], innerText := "" }] [] =
      .ok ["http://h/a.jpg"]) ∧
    (∀ u ∈ ["http://h/a.jpg"], App.is_excluded u = false) :=
  ⟨by decide,
   claim_C4 "http://h/" [{ name := "img", attrs := [("src", "a.jpg")], innerText := "" }]
     [] ["http://h/a.jpg"] (by decide)⟩

/-- The spec's direct-attribute rule, stated in its own words (section 4.2
item 1): the first non-empty attribute value among src, data-src,
data-original, data-lazy. -/
def firstNonEmptyAttrSpec (t : Tag) : Option String :=
  ((["src", "data-src", "data-original", "data-lazy"].map t.get).find? truthyStr).join

/-- The direct candidate backend.py actually fetches from an img tag: the
`or`-chain value when truthy, nothing otherwise (the `if src:` guard). -/
def Backend.usedDirectCandidate (t : Tag) : Option String :=
  if truthyStr (Backend.directCandidate t) then Backend.directCandidate t else none

/-- C5 amended: backend.py's extractor uses exactly the first non-empty
direct attribute, as the spec says; app.py's extractor instead uses every
non-empty attribute among the four as a candidate (see counterexample);
both take the first whitespace token of each comma-separated srcset
candidate. -/
theorem claim_C5 :
    (∀ t : Tag, Backend.usedDirectCandidate t = firstNonEmptyAttrSpec t) ∧
    App.extract_images_from_html "http://h/"
      [{ name := "img", attrs := [("src", "a.jpg"), ("data-original", "c.gif")],
         innerText := "" }] [] = .ok ["http://h/a.jpg", "http://h/c.gif"] ∧
    Backend.extract_images_from_html "http://h/"
      [{ name := "img", attrs := [("src", "a.jpg"), ("data-original", "c.gif")],
         innerText := "" }] = ["http://h/a.jpg"] ∧
    App.extract_images_from_html "http://h/"
      [{ name := "img", attrs := [("srcset", "i1.png 1x, i2.png 2x")],
         innerText := "" }] [] = .ok ["http://h/i1.png", "http://h/i2.png"] ∧
    Backend.extract_images_from_html "http://h/"
      [{ name := "img", attrs := [("srcset", "i1.png 1x, i2.png 2x")],
         innerText := "" }] = ["http://h/i1.png", "http://h/i2.png"] := by
  refine ⟨?_, by decide, by decide, by decide, by decide⟩
  intro t
  unfold Backend.usedDirectCandidate Backend.directCandidate firstNonEmptyAttrSpec
  simp only [List.map_cons, List.map_nil]
  by_cases h1 : truthyStr (t.get "src")
  · rw [List.find?_cons_of_pos _ h1]
    simp [pyOrStr, h1, Option.join]
  · rw [List.find?_cons_of_neg _ h1]
    by_cases h2 : truthyStr (t.get "data-src")
    · rw [List.find?_cons_of_pos _ h2]
      simp [pyOrStr, h1, h2, Option.join]
    · rw [List.find?_cons_of_neg _ h2]
      by_cases h3 : truthyStr (t.get "data-original")
      · rw [List.find?_cons_of_pos _ h3]
        simp [pyOrStr, h1, h2, h3, Option.join]
      · rw [List.find?_cons_of_neg _ h3]
        by_cases h4 : truthyStr (t.get "data-lazy")
        · rw [List.find?_cons_of_pos _ h4]
          simp [pyOrStr, h1, h2, h3, h4, Option.join]
        · rw [List.find?_cons_of_neg _ h4]
          rw [List.find?_nil]
          simp [pyOrStr, h1, h2, h3, h4]

/-- C5 counterexample: with a non-empty src, app.py still uses data-src as
an additional candidate — the extracted set contains both resolved URLs,
refuting "later attributes are not used as additional candidates". -/
theorem claim_C5_counterexample :
    truthyStr (Tag.get
      { name := "img", attrs := [("src", "a.jpg"), ("data-src", "b.png")],
        innerText := "" } "src") = true ∧
    App.extract_images_from_html "http://h/"
      [{ name := "img", attrs := [("src", "a.jpg"), ("data-src", "b.png")],
         innerText := "" }] [] = .ok ["http://h/a.jpg", "http://h/b.png"] :=
  ⟨by decide, by decide⟩

/-- C6 amended: on the claim's document, app.py's extractor yields exactly
the resolved, query-stripped pair, and the extension test is
case-insensitive in both extractors; backend.py's extractor keeps the query
(its normalize_url strips only the fragment), so it yields b.png?x=1
instead. -/
theorem claim_C6 :
    App.extract_images_from_html "http://h/p"
      [{ name := "img", attrs := [("src", "a.jpg")], innerText := "" },
       { name := "img", attrs := [("data-src", "b.png?x=1")], innerText := "" }] [] =
      .ok ["http://h/a.jpg", "http://h/b.png"] ∧
    Backend.extract_images_from_html "http://h/p"
      [{ name := "img", attrs := [("src", "a.jpg")], innerText := "" },
       { name := "img", attrs := [("data-src", "b.png?x=1")], innerText := "" }] =
      ["http://h/a.jpg", "http://h/b.png?x=1"] ∧
    App.is_image_url "http://h/c.PNG" = true ∧
    Backend.is_valid_image "http://h/c.PNG" = true :=
  ⟨by decide, by decide, by decide, by decide⟩

/-- C6 counterexample: backend.py's extraction of the claim's document is
not the claimed query-stripped set — the query survives. -/
theorem claim_C6_counterexample :
    Backend.extract_images_from_html "http://h/p"
      [{ name := "img", attrs := [("src", "a.jpg")], innerText := "" },
       { name := "img", attrs := [("data-src", "b.png?x=1")], innerText := "" }] ≠
      ["http://h/a.jpg", "http://h/b.png"] ∧
    "http://h/b.png?x=1" ∈ Backend.extract_images_from_html "http://h/p"
      [{ name := "img", attrs := [("src", "a.jpg")], innerText := "" },
       { name := "img", attrs := [("data-src", "b.png?x=1")], innerText := "" }] :=
  ⟨by decide, by decide⟩

/-- C7 amended: the size probe returns one value per URL in input order; a
raised request, a missing content-length, or a non-digit content-length all
yield exactly 0.0.  (A non-2xx response carrying a numeric content-length
does NOT yield 0.0 — see the counterexample — since get_head_size never
inspects the status.) -/
theorem claim_C7 (probe : String → Option HeadResponse) (urls : List String) :
    (fetch_sizes_async probe urls).length = urls.length ∧
    (∀ i : Nat, (fetch_sizes_async probe urls)[i]? =
      (urls[i]?).map (fun u => round2 (get_head_size probe u))) ∧
    (∀ u, probe u = none → get_head_size probe u = 0) ∧
    (∀ u r, probe u = some r → r.contentLength = none →
      get_head_size probe u = 0) ∧
    (∀ u r cl, probe u = some r → r.contentLength = some cl →
      pyIsDigit cl = false → get_head_size probe u = 0) ∧
    round2 0 = 0 := by
  refine ⟨List.length_map _ _, ?_, ?_, ?_, ?_, ?_⟩
  · intro i
    unfold fetch_sizes_async
    rw [List.getElem?_map]
  · intro u hp
    unfold get_head_size
    rw [hp]
  · intro u r hp hc
    simp [get_head_size, hp, hc]
  · intro u r cl hp hc hd
    simp [get_head_size, hp, hc, hd]
  · norm_num [round2]

/-- C7 counterexample: a 404 response with content-length 2048 makes the
probe report 2 KB, not 0.0, though 404 is not a 2xx status. -/
theorem claim_C7_counterexample :
    (fun _ : String => some { status := 404, contentLength := some "2048" :
        HeadResponse }) "http://h/x.png" =
      some { status := 404, contentLength := some "2048" } ∧
    fetch_sizes_async
      (fun _ => some { status := 404, contentLength := some "2048" })
      ["http://h/x.png"] = [2] ∧
    (2 : ℚ) ≠ 0 := by
  refine ⟨rfl, ?_, by norm_num⟩
  have hg : get_head_size
      (fun _ => some { status := 404, contentLength := some "2048" })
      "http://h/x.png" = 2 := by
    show (if pyIsDigit "2048" then ((pyToNat "2048" : ℚ)) / 1024 else 0) = 2
    rw [if_pos (by decide : pyIsDigit "2048" = true)]
    have h1 : pyToNat "2048" = 2048 := by decide
    rw [h1]
    norm_num
  show [round2 (get_head_size _ "http://h/x.png")] = [2]
  rw [hg]
  norm_num [round2, round_eq]

/-- C7 witness: a probe that always raises gives 0.0, and length and order
are preserved. -/
theorem claim_C7_witness :
    ((fun _ : String => (none : Option HeadResponse)) "u" = none) ∧
    get_head_size (fun _ : String => (none : Option HeadResponse)) "u" = 0 ∧
    (fetch_sizes_async (fun _ : String => (none : Option HeadResponse))
      ["u", "v"]).length = 2 :=
  ⟨rfl,
   (claim_C7 (fun _ => none) ["u", "v"]).2.2.1 "u" rfl,
   (claim_C7 (fun _ => none) ["u", "v"]).1⟩

theorem reduceTable_eq (minKB maxKB : ℚ) (xs : List (String × ℚ)) :
    reduceTable minKB maxKB xs =
      ((sortDedup xs).filter (fun rec => sizeKeep minKB maxKB rec.size)).map mkRow := by
  unfold reduceTable
  rw [List.filter_map]
  rfl

/-- C9: the Reducer pipeline is idempotent — applying it a second time with
the same min/max filter to its own rows changes nothing. -/
theorem claim_C9 (minKB maxKB : ℚ) (xs : List (String × ℚ)) :
    reduceTable minKB maxKB
      ((reduceTable minKB maxKB xs).map (fun r => (r.url, r.size))) =
      reduceTable minKB maxKB xs := by
  have hF : reduceTable minKB maxKB xs =
      ((sortDedup xs).filter (fun rec => sizeKeep minKB maxKB rec.size)).map mkRow :=
    reduceTable_eq minKB maxKB xs
  set F := (sortDedup xs).filter (fun rec => sizeKeep minKB maxKB rec.size) with hFdef
  -- the second run rebuilds exactly the records F
  have hproj : (F.map mkRow).map (fun r => (r.url, r.size)) =
      F.map (fun rec => (rec.url, rec.size)) := by
    rw [List.map_map]
    rfl
  have hbuild : buildRecords ((F.map mkRow).map (fun r => (r.url, r.size))) = F := by
    rw [hproj]
    unfold buildRecords
    rw [List.map_map]
    have hcong : ∀ rec ∈ F,
        ((fun p : String × ℚ =>
          ({ url := p.1, size := p.2, filename := filenameOf p.1 } : ImgRecord)) ∘
          fun rec => (rec.url, rec.size)) rec = id rec := by
      intro rec hrec
      have hfn : rec.filename = filenameOf rec.url :=
        buildRecords_filename (sortDedup_mem (List.mem_of_mem_filter hrec))
      show ImgRecord.mk rec.url rec.size (filenameOf rec.url) = rec
      cases rec with
      | mk u sz fn =>
        simp only at hfn
        rw [hfn]
    rw [List.map_congr_left hcong, List.map_id]
  -- F is already sorted descending, with pairwise-distinct filenames
  have hsortedF : F.Sorted sizeGE :=
    List.Pairwise.filter _ (sortDedup_sorted xs)
  have hkeysF : F.Pairwise (fun a b => a.filename ≠ b.filename) :=
    List.Pairwise.sublist (List.filter_sublist _) (dropDup_keys _ []).1
  have hsd2 : sortDedup ((F.map mkRow).map (fun r => (r.url, r.size))) = F := by
    unfold sortDedup sortBySizeDesc
    rw [hbuild, List.Sorted.insertionSort_eq hsortedF]
    exact dropDup_eq_self F [] hkeysF (fun r _ => by simp)
  -- every row of the first run already passes the filter
  have hpass : ∀ rec ∈ F, sizeKeep minKB maxKB rec.size = true := by
    intro rec hrec
    exact (List.mem_filter.mp hrec).2
  rw [hF, reduceTable_eq, hsd2, List.filter_eq_self.mpr hpass]
